import Mathlib

/-
Verification of the pipeline library (package `pipeline`, file pipeline.go).

Embedding conventions:
- Go's `func(T) (T, error)` becomes `T → T × Option ε`, where `none` is a
  nil error (success) and `some e` is a non-nil error (failure); the error
  type is an arbitrary parameter `ε`, matching Go's opaque `error` values.
- The `Pipeline` struct keeps its two slices as Lean lists; `append` on a
  Go slice becomes `++ [·]`.
- `Parallel` launches one goroutine per branch; each goroutine writes only
  `results[idx]` and `errs[idx]`, and `wg.Wait()` joins them all before the
  error scan.  Since each slot is written exactly once from the shared
  input, the arrays after the join are exactly the pointwise application of
  each step to the input, which is how they are modelled here.
  `results[0]` on a non-empty Go slice is modelled by `List.headI` (the
  error scan only fires when at least one branch exists).
-/

namespace PipelineSpec

/-- Go: `type StepFunc[T any] func(T) (T, error)`. -/
abbrev StepFunc (T ε : Type) : Type := T → T × Option ε

/-- Go: `type Middleware[T any] func(next StepFunc[T]) StepFunc[T]`. -/
abbrev Middleware (T ε : Type) : Type := StepFunc T ε → StepFunc T ε

/-- Go: `type Pipeline[T any] struct { steps []StepFunc[T]; middlewares []Middleware[T] }`. -/
structure Pipeline (T ε : Type) where
  steps : List (StepFunc T ε)
  middlewares : List (Middleware T ε)

/-- Go: `func New[T any]() *Pipeline[T]` — empty step and middleware slices. -/
def Pipeline.New (T ε : Type) : Pipeline T ε :=
  { steps := [], middlewares := [] }

/-- Go: `func (p *Pipeline[T]) Use(mw Middleware[T]) *Pipeline[T]` — appends `mw`. -/
def Pipeline.Use {T ε : Type} (p : Pipeline T ε) (mw : Middleware T ε) : Pipeline T ε :=
  { p with middlewares := p.middlewares ++ [mw] }

/-- The loop body of `Then`: `for i := len(mws)-1; i >= 0; i-- { step = mws[i](step) }`,
i.e. middlewares applied in reverse registration order, which is `List.foldr`. -/
def applyMiddlewares {T ε : Type} (mws : List (Middleware T ε)) (step : StepFunc T ε) :
    StepFunc T ε :=
  mws.foldr (fun mw s => mw s) step

/-- Go: `func (p *Pipeline[T]) Then(step StepFunc[T]) *Pipeline[T]`. -/
def Pipeline.Then {T ε : Type} (p : Pipeline T ε) (step : StepFunc T ε) : Pipeline T ε :=
  { p with steps := p.steps ++ [applyMiddlewares p.middlewares step] }

/-- The loop of `Execute`: `curr, err = s(curr); if err != nil { return curr, err }`. -/
def executeSteps {T ε : Type} : List (StepFunc T ε) → T → T × Option ε
  | [], curr => (curr, none)
  | s :: rest, curr =>
    match s curr with
    | (c, some e) => (c, some e)
    | (c, none) => executeSteps rest c

/-- Go: `func (p *Pipeline[T]) Execute(input T) (T, error)`. -/
def Pipeline.Execute {T ε : Type} (p : Pipeline T ε) (input : T) : T × Option ε :=
  executeSteps p.steps input

/-- Go: `func Wrap[T any](f func(T) T) StepFunc[T]` — always a nil error. -/
def Wrap {T ε : Type} (f : T → T) : StepFunc T ε :=
  fun input => (f input, none)

/-- Go: `func Conditional[T any](predicate func(T) bool, thenStep, elseStep StepFunc[T]) StepFunc[T]`. -/
def Conditional {T ε : Type} (predicate : T → Bool) (thenStep elseStep : StepFunc T ε) :
    StepFunc T ε :=
  fun input => if predicate input then thenStep input else elseStep input

/-- Go: `func Parallel[T any](combiner func([]T) (T, error), steps ...StepFunc[T]) StepFunc[T]`.
Each goroutine writes `results[idx], errs[idx] = s(input)` into its own slot; after
`wg.Wait()` the error slice is scanned in index order, returning `results[0]` with the
first non-nil error, and otherwise `combiner(results)` is returned. -/
def Parallel {T ε : Type} [Inhabited T] (combiner : List T → T × Option ε)
    (steps : List (StepFunc T ε)) : StepFunc T ε :=
  fun input =>
    let results := steps.map fun s => (s input).1
    let errs := steps.map fun s => (s input).2
    match errs.findSome? id with
    | some e => (results.headI, some e)
    | none => combiner results

/-- A named logging middleware, modelled on the middleware of
`TestPipeline_Middleware` in pipeline_test.go: it records a "before" entry,
calls the wrapped step, records an "after" entry, and passes value and error
through.  The log rides along in the value, since steps are pure here. -/
def logMW {V ε : Type} (name : String) : Middleware (V × List String) ε :=
  fun next => fun input =>
    match next (input.1, input.2 ++ [name ++ "-before"]) with
    | (out, err) => ((out.1, out.2 ++ [name ++ "-after"]), err)

/-- Unfolding of `Parallel` at an input: the error slice is scanned for the
first non-nil entry; on a hit, `results[0]` is paired with that error, and
otherwise the combiner runs on the results slice. -/
lemma Parallel_eq {T ε : Type} [Inhabited T] (combiner : List T → T × Option ε)
    (steps : List (StepFunc T ε)) (x : T) :
    Parallel combiner steps x
      = match (steps.map fun s => (s x).2).findSome? id with
        | some e => ((steps.map fun s => (s x).1).headI, some e)
        | none => combiner (steps.map fun s => (s x).1) := rfl

/-- If entry `k` of a list of optional errors is `some e` and every earlier
entry is `none`, the first-hit scan returns `some e`. -/
lemma findSome_id_first {ε : Type} (l : List (Option ε)) (k : Nat) (hk : k < l.length)
    (e : ε) (h1 : l.get ⟨k, hk⟩ = some e)
    (h2 : ∀ j (hj : j < l.length), j < k → l.get ⟨j, hj⟩ = none) :
    l.findSome? id = some e := by
  induction l generalizing k with
  | nil => exact absurd hk (Nat.not_lt_zero k)
  | cons a l ih =>
    cases k with
    | zero =>
      have ha : a = some e := h1
      simp [List.findSome?_cons, ha]
    | succ k =>
      have ha : a = none := h2 0 (Nat.succ_pos _) (Nat.succ_pos k)
      have htail : l.findSome? id = some e := by
        refine ih k (Nat.lt_of_succ_lt_succ hk) h1 ?_
        intro j hj hjk
        exact h2 (j + 1) (Nat.succ_lt_succ hj) (Nat.succ_lt_succ hjk)
      simp [List.findSome?_cons, ha, htail]

/-- If every entry of a list of optional errors is `none`, the scan misses. -/
lemma findSome_id_none {ε : Type} (l : List (Option ε)) (h : ∀ o ∈ l, o = none) :
    l.findSome? id = none :=
  List.findSome?_eq_none_iff.mpr h

/-- Executing a list of always-succeeding wrapped transforms folds them over
the input in order, with no failure. -/
lemma executeSteps_map_wrap {T ε : Type} (fs : List (T → T)) (x : T) :
    executeSteps (fs.map fun f => Wrap (ε := ε) f) x
      = (fs.foldl (fun a f => f a) x, none) := by
  induction fs generalizing x with
  | nil => rfl
  | cons f fs ih => simpa [executeSteps, Wrap] using ih (f x)

/-- Registering wrapped transforms through `Then` on a middleware-free
pipeline appends them to the step list unchanged. -/
lemma foldl_then_no_mw {T ε : Type} (fs : List (T → T)) (p : Pipeline T ε)
    (h : p.middlewares = []) :
    (fs.foldl (fun q f => q.Then (Wrap f)) p).steps = p.steps ++ fs.map fun f => Wrap f := by
  induction fs generalizing p with
  | nil => simp
  | cons f fs ih =>
    simp only [List.foldl_cons, List.map_cons]
    rw [ih (p.Then (Wrap f)) (by simp [Pipeline.Then, h])]
    simp [Pipeline.Then, applyMiddlewares, h]

/-- C8: executing a pipeline with an empty step list returns the input
unchanged with no failure. -/
theorem execute_empty (T ε : Type) (x : T) :
    (Pipeline.New T ε).Execute x = (x, none) := rfl

/-- C7: the Step built by `Conditional` returns exactly `thenStep input` when
the predicate holds at the input and exactly `elseStep input` otherwise,
propagating the chosen branch's output and error unchanged; the result is a
pure function of the chosen branch alone. -/
theorem conditional_routes (T ε : Type) (predicate : T → Bool)
    (thenStep elseStep : StepFunc T ε) (x : T) :
    Conditional predicate thenStep elseStep x
      = if predicate x then thenStep x else elseStep x := rfl

/-- C10: `Parallel` with zero branch steps calls the combiner once on the
empty results list and returns its value and error as its own result. -/
theorem parallel_empty (T ε : Type) [Inhabited T]
    (combiner : List T → T × Option ε) (x : T) :
    Parallel combiner [] x = combiner [] := rfl

/-- C5: `Use` appends to the middleware list and leaves the step list — and
hence the behavior of every already-registered (already-wrapped) step and of
`Execute` — unchanged. -/
theorem use_preserves_steps (T ε : Type) (p : Pipeline T ε) (mw : Middleware T ε) :
    (p.Use mw).steps = p.steps
      ∧ (p.Use mw).middlewares = p.middlewares ++ [mw]
      ∧ ∀ x, (p.Use mw).Execute x = p.Execute x :=
  ⟨rfl, rfl, fun _ => rfl⟩

/-- C3: `Then` wraps the step with the registered middlewares folded on in
reverse registration order (first-registered outermost); observably, with
logging middleware `a` registered before `b` around a log-preserving step,
the log reads a-before, b-before, b-after, a-after. -/
theorem then_onion_order (V ε : Type) (p : Pipeline V ε) (s : StepFunc V ε)
    (a b : String) (g : V → V) (x : V) :
    (p.Then s).steps = p.steps ++ [p.middlewares.foldr (fun mw t => mw t) s]
      ∧ ((((Pipeline.New (V × List String) ε).Use (logMW a)).Use (logMW b)).Then
            (Wrap fun q => (g q.1, q.2))).Execute (x, [])
          = ((g x, [a ++ "-before", b ++ "-before", b ++ "-after", a ++ "-after"]), none) :=
  ⟨rfl, rfl⟩

/-- C4: on a middleware-free pipeline built by registering `Wrap f` for each
transform `f` in order, `Execute` is the mathematical composition of the
transforms in registration order, with no failure. -/
theorem execute_wrap_composition (T ε : Type) (fs : List (T → T)) (x : T) :
    (fs.foldl (fun q f => q.Then (Wrap f)) (Pipeline.New T ε)).Execute x
      = (fs.foldl (fun a f => f a) x, none) := by
  show executeSteps _ x = _
  rw [foldl_then_no_mw fs (Pipeline.New T ε) rfl]
  simpa [Pipeline.New] using executeSteps_map_wrap (ε := ε) fs x

/-- C2: if every step before `s` succeeds, turning the input `x` into `v`,
and `s v` fails with output `out` and error `e`, then `Execute` over the full
step list returns `(out, e)` — the failing step's own output, not `v` — and
the result does not depend on the steps after `s` (they are never invoked). -/
theorem execute_short_circuit (T ε : Type) (pre post : List (StepFunc T ε))
    (s : StepFunc T ε) (x v out : T) (e : ε)
    (hpre : executeSteps pre x = (v, none)) (hs : s v = (out, some e)) :
    executeSteps (pre ++ s :: post) x = (out, some e) := by
  induction pre generalizing x with
  | nil =>
    have hx : x = v := by simpa [executeSteps] using congrArg Prod.fst hpre
    subst hx
    simp [executeSteps, hs]
  | cons a pre ih =>
    rcases ha : a x with ⟨c, err⟩
    cases err with
    | none =>
      have hpre2 : executeSteps pre c = (v, none) := by
        simpa [executeSteps, ha] using hpre
      simpa [executeSteps, ha] using ih c hpre2
    | some e2 =>
      exfalso
      have hcontra : ((c, some e2) : T × Option ε) = (v, none) := by
        simpa [executeSteps, ha] using hpre
      simpa using congrArg Prod.snd hcontra

/-- Witness for C2 at a concrete input (the scenario of TestPipeline_Error):
steps add-one, fail-with-identity, double; Execute 3 stops at the second
step and returns its output 4 with its error. -/
theorem execute_short_circuit_witness :
    executeSteps
        (([Wrap fun y => y + 1] : List (StepFunc Int Nat))
          ++ ((fun y => (y, some 7)) : StepFunc Int Nat) :: [Wrap fun y => y * 2]) 3
      = (4, some 7) :=
  execute_short_circuit Int Nat [Wrap fun y => y + 1] [Wrap fun y => y * 2]
    (fun y => (y, some 7)) 3 4 4 7 (by decide) (by decide)

/-- C1: if branch `k` of `Parallel` fails at input `x` with error `e` and
every earlier branch succeeds, the built Step returns `e` paired with the
output of the branch at index 0 (not the failing branch's output, not the
input), and the result is the same for every combiner — the combiner is not
consulted. -/
theorem parallel_first_error (T ε : Type) [Inhabited T]
    (combiner : List T → T × Option ε) (steps : List (StepFunc T ε)) (x : T)
    (k : Nat) (hk : k < steps.length) (e : ε)
    (hfail : ((steps.get ⟨k, hk⟩) x).2 = some e)
    (hbefore : ∀ j (hj : j < steps.length), j < k → ((steps.get ⟨j, hj⟩) x).2 = none) :
    Parallel combiner steps x
      = (((steps.get ⟨0, Nat.lt_of_le_of_lt (Nat.zero_le k) hk⟩) x).1, some e)
      ∧ ∀ c2 : List T → T × Option ε, Parallel c2 steps x = Parallel combiner steps x := by
  have herrs : (steps.map fun s => (s x).2).findSome? id = some e := by
    refine findSome_id_first _ k (by simpa using hk) e ?_ ?_
    · rw [List.get_map]
      exact hfail
    · intro j hj hjk
      rw [List.get_map]
      exact hbefore j (by simpa using hj) hjk
  refine ⟨?_, ?_⟩
  · rw [Parallel_eq, herrs]
    cases steps with
    | nil => exact absurd hk (Nat.not_lt_zero k)
    | cons s ss => rfl
  · intro c2
    rw [Parallel_eq, herrs, Parallel_eq combiner, herrs]

/-- Witness for C1 at a concrete input: the second branch doubles and fails,
the first adds one and succeeds; on input 3 the Step reports the second
branch's error 5 paired with the first slot's value 4. -/
theorem parallel_first_error_witness :
    Parallel (T := Int) (ε := Nat) (fun rs => (rs.foldl (fun u v => u + v) 0, none))
        [Wrap fun y => y + 1, fun y => (y * 2, some 5)] 3 = (4, some 5) := by
  have h := (parallel_first_error Int Nat (fun rs => (rs.foldl (fun u v => u + v) 0, none))
      [Wrap fun y => y + 1, fun y => (y * 2, some 5)] 3 1 (by decide) 5 (by decide)
      (by decide)).1
  rw [h]
  decide

/-- C6: if every branch of `Parallel` succeeds at input `x`, the built Step
returns exactly the combiner applied to the ordered results list, and slot
`j` of that list is the output of branch `j`. -/
theorem parallel_success (T ε : Type) [Inhabited T]
    (combiner : List T → T × Option ε) (steps : List (StepFunc T ε)) (x : T)
    (h : ∀ j (hj : j < steps.length), ((steps.get ⟨j, hj⟩) x).2 = none) :
    Parallel combiner steps x = combiner (steps.map fun s => (s x).1)
      ∧ ∀ j (hj : j < steps.length),
          (steps.map fun s => (s x).1).get ⟨j, by simpa using hj⟩
            = ((steps.get ⟨j, hj⟩) x).1 := by
  have herrs : (steps.map fun s => (s x).2).findSome? id = none := by
    refine findSome_id_none _ ?_
    intro o ho
    rcases List.mem_map.mp ho with ⟨s, hs, rfl⟩
    rcases List.mem_iff_get.mp hs with ⟨j, rfl⟩
    exact h j j.isLt
  refine ⟨?_, ?_⟩
  · rw [Parallel_eq, herrs]
  · intro j hj
    rw [List.get_map]

/-- Witness for C6 at a concrete input (the scenario of TestPipeline_Parallel):
branches add-one and double with a sum combiner on input 3 yield 10 with no
failure. -/
theorem parallel_success_witness :
    Parallel (T := Int) (ε := Nat) (fun rs => (rs.foldl (fun u v => u + v) 0, none))
        [Wrap fun y => y + 1, Wrap fun y => y * 2] 3 = (10, none) := by
  have h := (parallel_success Int Nat (fun rs => (rs.foldl (fun u v => u + v) 0, none))
      [Wrap fun y => y + 1, Wrap fun y => y * 2] 3 (by decide)).1
  rw [h]
  decide

end PipelineSpec
